import Mathlib

/-!
Shallow embedding of the trie implementation in `src/trie.py`
(class `TrieNode` and class `Trie`).

Words are modelled as `List Char`.  A Python `dict` keyed by characters is
modelled as an association list `List (Char × TrieNode)` that preserves
insertion order: adding a fresh key appends at the end, updating an existing
key keeps its position, and `del` removes the entry in place — exactly the
observable behaviour of a CPython `dict`.  The trie's cached word counter
`_size` is an `Int`, matching Python's unbounded signed integers.
-/

/-- `TrieNode` from `trie.py`: a children mapping plus the `is_end` flag. -/
inductive TrieNode : Type where
  | mk (children : List (Char × TrieNode)) (is_end : Bool) : TrieNode

/-- The `children` field of a node. -/
def TrieNode.children : TrieNode → List (Char × TrieNode)
  | .mk cs _ => cs

/-- The `is_end` field of a node. -/
def TrieNode.is_end : TrieNode → Bool
  | .mk _ e => e

/-- `d.get(c)` on the association-list model of a Python dict. -/
def assocFind (cs : List (Char × TrieNode)) (c : Char) : Option TrieNode :=
  match cs with
  | [] => none
  | (d, n) :: rest => if d = c then some n else assocFind rest c

/-- `d[c] = v` for a key `c` already present: replaces the value in place. -/
def assocSet (cs : List (Char × TrieNode)) (c : Char) (v : TrieNode) :
    List (Char × TrieNode) :=
  match cs with
  | [] => []
  | (d, n) :: rest => if d = c then (d, v) :: rest else (d, n) :: assocSet rest c v

/-- `del d[c]`: removes the entry for key `c`, keeping the others in order. -/
def assocErase (cs : List (Char × TrieNode)) (c : Char) : List (Char × TrieNode) :=
  match cs with
  | [] => []
  | (d, n) :: rest => if d = c then rest else (d, n) :: assocErase rest c

/-- `Trie._traverse` started at an arbitrary node: follow one edge per
character, `none` as soon as an edge is missing. -/
def TrieNode.traverse : TrieNode → List Char → Option TrieNode
  | n, [] => some n
  | n, c :: w =>
    match assocFind (TrieNode.children n) c with
    | some child => TrieNode.traverse child w
    | none => none

/-- `Trie.search` relative to a node: `bool(node and node.is_end)` after the
traversal. -/
def TrieNode.searchNode (n : TrieNode) (w : List Char) : Bool :=
  match TrieNode.traverse n w with
  | some m => TrieNode.is_end m
  | none => false

/-- The `Trie` object: the root node and the cached `_size` counter. -/
structure Trie where
  root : TrieNode
  size : Int

/-- `Trie.__init__`: an empty root node and `_size = 0`. -/
def Trie.empty : Trie := ⟨TrieNode.mk [] false, 0⟩

/-- `Trie.search`. -/
def Trie.search (t : Trie) (w : List Char) : Bool :=
  TrieNode.searchNode t.root w

/-- `Trie.starts_with`: the traversal succeeds. -/
def Trie.starts_with (t : Trie) (p : List Char) : Bool :=
  (TrieNode.traverse t.root p).isSome

/-- The walking-and-marking loop of `Trie.insert`, returning the new subtree
and the `is_end` flag the final node had before marking (`true` exactly when
the word was already present, in which case `_size` is not incremented). -/
def insertAux : TrieNode → List Char → TrieNode × Bool
  | n, [] => (TrieNode.mk (TrieNode.children n) true, TrieNode.is_end n)
  | n, c :: w =>
    match assocFind (TrieNode.children n) c with
    | some child =>
      let r := insertAux child w
      (TrieNode.mk (assocSet (TrieNode.children n) c r.1) (TrieNode.is_end n), r.2)
    | none =>
      let r := insertAux (TrieNode.mk [] false) w
      (TrieNode.mk (TrieNode.children n ++ [(c, r.1)]) (TrieNode.is_end n), r.2)

/-- `Trie.insert`: no-op on the empty word, otherwise walk/create the path,
mark the final node, and increment `_size` iff it was not already marked. -/
def Trie.insert (t : Trie) (w : List Char) : Trie :=
  if w = [] then t
  else
    let r := insertAux t.root w
    ⟨r.1, if r.2 then t.size else t.size + 1⟩

/-- The recursive helper `_delete` of `Trie.delete`.  Returns the rewritten
subtree, the `should_prune` flag handed to the caller, and whether `_size`
was decremented (the target node's `is_end` was cleared). -/
def deleteAux : TrieNode → List Char → TrieNode × Bool × Bool
  | n, [] =>
    if TrieNode.is_end n then
      (TrieNode.mk (TrieNode.children n) false, (TrieNode.children n).isEmpty, true)
    else (n, false, false)
  | n, c :: w =>
    match assocFind (TrieNode.children n) c with
    | none => (n, false, false)
    | some child =>
      let r := deleteAux child w
      if r.2.1 then
        let cs := assocErase (TrieNode.children n) c
        (TrieNode.mk cs (TrieNode.is_end n), (!TrieNode.is_end n) && cs.isEmpty, r.2.2)
      else
        (TrieNode.mk (assocSet (TrieNode.children n) c r.1) (TrieNode.is_end n), false, r.2.2)

/-- `Trie.delete`: returns the new trie and the boolean result (`existed`,
computed by `search` before the mutation). -/
def Trie.delete (t : Trie) (w : List Char) : Trie × Bool :=
  if w = [] then (t, false)
  else
    let existed := Trie.search t w
    let r := deleteAux t.root w
    (⟨r.1, if r.2.2 then t.size - 1 else t.size⟩, existed)

mutual

/-- The counting DFS of `Trie.count_prefix`: number of nodes in the subtree
with `is_end = true`. -/
def TrieNode.countWords : TrieNode → Nat
  | .mk cs e => (if e then 1 else 0) + countWordsList cs

/-- `countWords` summed over a children list. -/
def countWordsList : List (Char × TrieNode) → Nat
  | [] => 0
  | (_, n) :: rest => TrieNode.countWords n + countWordsList rest

end

/-- `Trie.count_prefix`: 0 if the prefix node is absent, else the DFS count. -/
def Trie.count_prefix (t : Trie) (p : List Char) : Nat :=
  match TrieNode.traverse t.root p with
  | none => 0
  | some n => TrieNode.countWords n

/-- The guard `limit is not None and len(results) >= limit`. -/
def limitHit (limit : Option Int) (len : Nat) : Bool :=
  match limit with
  | none => false
  | some k => decide (k ≤ (len : Int))

mutual

/-- The `dfs` closure of `Trie.get_words_with_prefix`: `path` is the word
spelled so far, `acc` the `results` list accumulated so far. -/
def dfsWords (limit : Option Int) : TrieNode → List Char → List (List Char) → List (List Char)
  | .mk cs e, path, acc =>
    if limitHit limit acc.length then acc
    else dfsList limit cs path (if e then acc ++ [path] else acc)

/-- The `for ch, child in n.children.items()` loop inside `dfs`. -/
def dfsList (limit : Option Int) :
    List (Char × TrieNode) → List Char → List (List Char) → List (List Char)
  | [], _, acc => acc
  | (c, child) :: rest, path, acc =>
    dfsList limit rest path (dfsWords limit child (path ++ [c]) acc)

end

/-- `Trie.get_words_with_prefix`: empty result if the prefix node is absent,
else the DFS collection starting with `path = list(prefix)`, `results = []`. -/
def Trie.get_words_with_prefix (t : Trie) (p : List Char) (limit : Option Int) :
    List (List Char) :=
  match TrieNode.traverse t.root p with
  | none => []
  | some n => dfsWords limit n p []

/-- `Trie.is_empty`. -/
def Trie.is_empty (t : Trie) : Bool :=
  decide (t.size = 0)

/-- A mutation step against the trie: `insert` or `delete`. -/
inductive Op : Type where
  | ins (w : List Char)
  | del (w : List Char)

/-- Apply one operation (the result of `delete` is discarded). -/
def applyOp (t : Trie) : Op → Trie
  | .ins w => Trie.insert t w
  | .del w => (Trie.delete t w).1

/-- Apply a sequence of operations from left to right. -/
def applyOps (t : Trie) (ops : List Op) : Trie :=
  ops.foldl applyOp t

/-- The size contribution of one operation performed on trie `t`: `+1` for an
insert of a previously-absent non-empty word, `-1` for a delete that returns
`true`, `0` otherwise. -/
def opDelta (t : Trie) : Op → Int
  | .ins w => if w ≠ [] ∧ Trie.search t w = false then 1 else 0
  | .del w => if (Trie.delete t w).2 then -1 else 0

/-- Sum of the size contributions along a trace of operations. -/
def traceDelta : Trie → List Op → Int
  | _, [] => 0
  | t, op :: rest => opDelta t op + traceDelta (applyOp t op) rest

/-- `c` does not occur as a key of the children list. -/
def keyAbsent (c : Char) : List (Char × TrieNode) → Bool
  | [] => true
  | (d, _) :: rest => if d = c then false else keyAbsent c rest

/-- The keys of a children list are pairwise distinct (always true of a
Python dict). -/
def noDupKeys : List (Char × TrieNode) → Bool
  | [] => true
  | (c, _) :: rest => keyAbsent c rest && noDupKeys rest

mutual

/-- Every children list in the subtree has pairwise-distinct keys. -/
def TrieNode.wfKeys : TrieNode → Bool
  | .mk cs _ => noDupKeys cs && wfKeysList cs

/-- `wfKeys` over a children list. -/
def wfKeysList : List (Char × TrieNode) → Bool
  | [] => true
  | (_, n) :: rest => TrieNode.wfKeys n && wfKeysList rest

end

/-- A node still carries information: it is terminal or has children. -/
def TrieNode.live (n : TrieNode) : Bool :=
  TrieNode.is_end n || !(TrieNode.children n).isEmpty

mutual

/-- Every node strictly below this one is `live` (the eager-pruning
invariant, stated for all non-root nodes when applied to the root). -/
def TrieNode.allLive : TrieNode → Bool
  | .mk cs _ => allLiveList cs

/-- `allLive` over a children list: each child is `live` and recursively
`allLive`. -/
def allLiveList : List (Char × TrieNode) → Bool
  | [] => true
  | (_, n) :: rest => TrieNode.live n && TrieNode.allLive n && allLiveList rest

end

mutual

/-- The words spelled by the terminal nodes of a subtree, in the DFS order of
the children lists, each prefixed by `path`. -/
def subtreeWords : TrieNode → List Char → List (List Char)
  | .mk cs e, path => (if e then [path] else []) ++ subtreeWordsList cs path

/-- `subtreeWords` over a children list. -/
def subtreeWordsList : List (Char × TrieNode) → List Char → List (List Char)
  | [], _ => []
  | (c, n) :: rest, path => subtreeWords n (path ++ [c]) ++ subtreeWordsList rest path

end

/-! ### Basic facts about the association-list dictionary model -/

@[simp]
theorem TrieNode.children_mk (cs : List (Char × TrieNode)) (e : Bool) :
    TrieNode.children (TrieNode.mk cs e) = cs := rfl

@[simp]
theorem TrieNode.is_end_mk (cs : List (Char × TrieNode)) (e : Bool) :
    TrieNode.is_end (TrieNode.mk cs e) = e := rfl

theorem TrieNode.eta (n : TrieNode) :
    TrieNode.mk (TrieNode.children n) (TrieNode.is_end n) = n := by
  cases n
  rfl

theorem assocFind_set_self (cs : List (Char × TrieNode)) (c : Char) (v : TrieNode)
    (h : (assocFind cs c).isSome) :
    assocFind (assocSet cs c v) c = some v := by
  induction cs with
  | nil => simp [assocFind] at h
  | cons p rest ih =>
    obtain ⟨d, n⟩ := p
    by_cases hdc : d = c
    · simp [assocFind, assocSet, hdc]
    · simp [assocFind, assocSet, hdc] at h ⊢
      exact ih h

theorem assocFind_set_ne (cs : List (Char × TrieNode)) (c d : Char) (v : TrieNode)
    (h : d ≠ c) :
    assocFind (assocSet cs c v) d = assocFind cs d := by
  induction cs with
  | nil => simp [assocSet]
  | cons p rest ih =>
    obtain ⟨e, n⟩ := p
    by_cases hec : e = c
    · subst hec
      simp [assocFind, assocSet, Ne.symm h]
    · by_cases hed : e = d <;> simp [assocFind, assocSet, hec, hed, ih, h]

theorem assocSet_self (cs : List (Char × TrieNode)) (c : Char) (v : TrieNode)
    (h : assocFind cs c = some v) :
    assocSet cs c v = cs := by
  induction cs with
  | nil => simp [assocFind] at h
  | cons p rest ih =>
    obtain ⟨d, n⟩ := p
    by_cases hdc : d = c
    · simp [assocFind, hdc] at h
      simp [assocSet, hdc, h]
    · simp [assocFind, hdc] at h
      simp [assocSet, hdc, ih h]

theorem assocFind_erase_ne (cs : List (Char × TrieNode)) (c d : Char)
    (h : d ≠ c) :
    assocFind (assocErase cs c) d = assocFind cs d := by
  induction cs with
  | nil => simp [assocErase]
  | cons p rest ih =>
    obtain ⟨e, n⟩ := p
    by_cases hec : e = c
    · subst hec
      simp [assocFind, assocErase, Ne.symm h]
    · by_cases hed : e = d <;> simp [assocFind, assocErase, hec, hed, ih, h]

theorem assocFind_append_single (cs : List (Char × TrieNode)) (c d : Char)
    (x : TrieNode) :
    assocFind (cs ++ [(c, x)]) d =
      match assocFind cs d with
      | some y => some y
      | none => if c = d then some x else none := by
  induction cs with
  | nil => simp [assocFind]
  | cons p rest ih =>
    obtain ⟨e, n⟩ := p
    by_cases hed : e = d <;> simp [assocFind, hed, ih]

/-! ### The result flags of insertion and deletion -/

theorem searchNode_nil (e : Bool) (w : List Char) :
    TrieNode.searchNode (TrieNode.mk [] e) w = (if w = [] then e else false) := by
  cases w with
  | nil => simp [TrieNode.searchNode, TrieNode.traverse]
  | cons c w =>
    simp [TrieNode.searchNode, TrieNode.traverse, assocFind]

theorem searchNode_cons (n : TrieNode) (c : Char) (w : List Char) :
    TrieNode.searchNode n (c :: w) =
      (match assocFind (TrieNode.children n) c with
       | some child => TrieNode.searchNode child w
       | none => false) := by
  cases hf : assocFind (TrieNode.children n) c <;>
    simp [TrieNode.searchNode, TrieNode.traverse, hf]

theorem insertAux_snd (w : List Char) (n : TrieNode) :
    (insertAux n w).2 = TrieNode.searchNode n w := by
  induction w generalizing n with
  | nil => simp [insertAux, TrieNode.searchNode, TrieNode.traverse]
  | cons c w ih =>
    rw [searchNode_cons]
    cases hf : assocFind (TrieNode.children n) c with
    | some child => simp [insertAux, hf, ih]
    | none =>
      simp [insertAux, hf, ih, searchNode_nil]

theorem deleteAux_dec (w : List Char) (n : TrieNode) :
    (deleteAux n w).2.2 = TrieNode.searchNode n w := by
  induction w generalizing n with
  | nil =>
    cases he : TrieNode.is_end n <;>
      simp [deleteAux, he, TrieNode.searchNode, TrieNode.traverse]
  | cons c w ih =>
    rw [searchNode_cons]
    cases hf : assocFind (TrieNode.children n) c with
    | some child =>
      rw [show deleteAux n (c :: w) =
        (match assocFind (TrieNode.children n) c with
         | none => (n, false, false)
         | some child =>
           let r := deleteAux child w
           if r.2.1 then
             let cs := assocErase (TrieNode.children n) c
             (TrieNode.mk cs (TrieNode.is_end n),
               (!TrieNode.is_end n) && cs.isEmpty, r.2.2)
           else
             (TrieNode.mk (assocSet (TrieNode.children n) c r.1)
               (TrieNode.is_end n), false, r.2.2)) from rfl]
      rw [hf]
      cases hp : (deleteAux child w).2.1 <;> simp [hp, ih]
    | none => simp [deleteAux, hf]

theorem deleteAux_prune_shape (w : List Char) (n : TrieNode)
    (h : (deleteAux n w).2.1 = true) :
    (deleteAux n w).1 = TrieNode.mk [] false := by
  cases w with
  | nil =>
    cases he : TrieNode.is_end n
    · simp [deleteAux, he] at h
    · simp [deleteAux, he] at h ⊢
      simp [h]
  | cons c w =>
    cases hf : assocFind (TrieNode.children n) c with
    | some child =>
      cases hp : (deleteAux child w).2.1
      · simp [deleteAux, hf, hp] at h
      · simp [deleteAux, hf, hp] at h ⊢
        obtain ⟨hne, hemp⟩ := h
        simp [hne, hemp]
    | none => simp [deleteAux, hf] at h

theorem deleteAux_noop (w : List Char) (n : TrieNode)
    (h : TrieNode.searchNode n w = false) :
    deleteAux n w = (n, false, false) := by
  induction w generalizing n with
  | nil =>
    have he : TrieNode.is_end n = false := by
      simpa [TrieNode.searchNode, TrieNode.traverse] using h
    simp [deleteAux, he]
  | cons c w ih =>
    rw [searchNode_cons] at h
    cases hf : assocFind (TrieNode.children n) c with
    | none => simp [deleteAux, hf]
    | some child =>
      simp [hf] at h
      have hchild := ih child h
      simp [deleteAux, hf, hchild, assocSet_self _ _ _ hf, TrieNode.eta]

/-! ### Word counting -/

theorem countWordsList_set (cs : List (Char × TrieNode)) (c : Char) (x v : TrieNode)
    (h : assocFind cs c = some x) :
    countWordsList (assocSet cs c v) + TrieNode.countWords x
      = countWordsList cs + TrieNode.countWords v := by
  induction cs with
  | nil => simp [assocFind] at h
  | cons p rest ih =>
    obtain ⟨d, n⟩ := p
    by_cases hdc : d = c
    · simp [assocFind, hdc] at h
      subst h
      simp [assocSet, hdc, countWordsList]
      omega
    · simp [assocFind, hdc] at h
      simp [assocSet, hdc, countWordsList]
      have := ih h
      omega

theorem countWordsList_erase (cs : List (Char × TrieNode)) (c : Char) (x : TrieNode)
    (h : assocFind cs c = some x) :
    countWordsList (assocErase cs c) + TrieNode.countWords x = countWordsList cs := by
  induction cs with
  | nil => simp [assocFind] at h
  | cons p rest ih =>
    obtain ⟨d, n⟩ := p
    by_cases hdc : d = c
    · simp [assocFind, hdc] at h
      subst h
      simp [assocErase, hdc, countWordsList]
      omega
    · simp [assocFind, hdc] at h
      simp [assocErase, hdc, countWordsList]
      have := ih h
      omega

theorem countWordsList_append (cs : List (Char × TrieNode)) (c : Char) (x : TrieNode) :
    countWordsList (cs ++ [(c, x)]) = countWordsList cs + TrieNode.countWords x := by
  induction cs with
  | nil => simp [countWordsList]
  | cons p rest ih =>
    obtain ⟨d, n⟩ := p
    simp [countWordsList, ih]
    omega

theorem insertAux_count (w : List Char) (n : TrieNode) :
    TrieNode.countWords (insertAux n w).1
      = TrieNode.countWords n + (if (insertAux n w).2 then 0 else 1) := by
  induction w generalizing n with
  | nil =>
    cases n with
    | mk cs e => cases e <;> simp [insertAux, TrieNode.countWords] <;> omega
  | cons c w ih =>
    cases n with
    | mk cs e =>
      cases hf : assocFind cs c with
      | some child =>
        have h1 := countWordsList_set cs c child (insertAux child w).1 hf
        have h2 := ih child
        simp [insertAux, hf, TrieNode.countWords]
        cases hr : (insertAux child w).2 <;> simp [hr] at h2 ⊢ <;> omega
      | none =>
        have h1 := countWordsList_append cs c (insertAux (TrieNode.mk [] false) w).1
        have h2 := ih (TrieNode.mk [] false)
        simp [insertAux, hf, TrieNode.countWords, h1]
        have h0 : TrieNode.countWords (TrieNode.mk [] false) = 0 := by
          simp [TrieNode.countWords, countWordsList]
        rw [h0] at h2
        cases hr : (insertAux (TrieNode.mk [] false) w).2 <;>
          simp [hr] at h2 ⊢ <;> omega

theorem deleteAux_count (w : List Char) (n : TrieNode) :
    TrieNode.countWords (deleteAux n w).1 + (if (deleteAux n w).2.2 then 1 else 0)
      = TrieNode.countWords n := by
  induction w generalizing n with
  | nil =>
    cases n with
    | mk cs e => cases e <;> simp [deleteAux, TrieNode.countWords] <;> omega
  | cons c w ih =>
    cases n with
    | mk cs e =>
      cases hf : assocFind cs c with
      | none => simp [deleteAux, hf]
      | some child =>
        have h2 := ih child
        cases hp : (deleteAux child w).2.1
        · have h1 := countWordsList_set cs c child (deleteAux child w).1 hf
          simp [deleteAux, hf, hp, TrieNode.countWords]
          cases hd : (deleteAux child w).2.2 <;> simp [hd] at h2 ⊢ <;> omega
        · have hshape := deleteAux_prune_shape w child hp
          have h1 := countWordsList_erase cs c child hf
          rw [hshape] at h2
          simp [TrieNode.countWords, countWordsList] at h2
          simp [deleteAux, hf, hp, TrieNode.countWords]
          cases hd : (deleteAux child w).2.2 <;> simp [hd] at h2 ⊢ <;> omega

/-! ### Size bookkeeping at the `Trie` level -/

theorem applyOps_cons (t : Trie) (op : Op) (ops : List Op) :
    applyOps t (op :: ops) = applyOps (applyOp t op) ops := rfl

theorem insert_size_count (t : Trie) (w : List Char)
    (h : t.size = (TrieNode.countWords t.root : Int)) :
    (Trie.insert t w).size = (TrieNode.countWords (Trie.insert t w).root : Int) := by
  by_cases hw : w = []
  · simpa [Trie.insert, hw] using h
  · have hc := insertAux_count w t.root
    simp [Trie.insert, hw]
    cases hr : (insertAux t.root w).2 <;> simp [hr] at hc ⊢ <;> rw [hc] <;>
      push_cast <;> omega

theorem delete_size_count (t : Trie) (w : List Char)
    (h : t.size = (TrieNode.countWords t.root : Int)) :
    (Trie.delete t w).1.size = (TrieNode.countWords (Trie.delete t w).1.root : Int) := by
  by_cases hw : w = []
  · simpa [Trie.delete, hw] using h
  · have hc := deleteAux_count w t.root
    simp [Trie.delete, hw]
    cases hr : (deleteAux t.root w).2.2 <;> simp [hr] at hc ⊢ <;> omega

theorem applyOps_size_count (ops : List Op) (t : Trie)
    (h : t.size = (TrieNode.countWords t.root : Int)) :
    (applyOps t ops).size = (TrieNode.countWords (applyOps t ops).root : Int) := by
  induction ops generalizing t with
  | nil => exact h
  | cons op rest ih =>
    rw [applyOps_cons]
    apply ih
    cases op with
    | ins w => exact insert_size_count t w h
    | del w => exact delete_size_count t w h

theorem applyOp_size (t : Trie) (op : Op) :
    (applyOp t op).size = t.size + opDelta t op := by
  cases op with
  | ins w =>
    by_cases hw : w = []
    · simp [applyOp, Trie.insert, opDelta, hw]
    · have hs := insertAux_snd w t.root
      cases hr : (insertAux t.root w).2 <;>
        rw [hr] at hs <;>
        simp [applyOp, Trie.insert, opDelta, hw, hr, Trie.search, ← hs]
  | del w =>
    by_cases hw : w = []
    · simp [applyOp, Trie.delete, opDelta, hw]
    · have hd := deleteAux_dec w t.root
      cases hr : (deleteAux t.root w).2.2 <;>
        rw [hr] at hd <;>
        simp [applyOp, Trie.delete, opDelta, hw, hr, Trie.search, ← hd] <;> omega

theorem applyOps_size (ops : List Op) (t : Trie) :
    (applyOps t ops).size = t.size + traceDelta t ops := by
  induction ops generalizing t with
  | nil => simp [applyOps, traceDelta]
  | cons op rest ih =>
    rw [applyOps_cons, ih, applyOp_size]
    show _ = t.size + (opDelta t op + traceDelta (applyOp t op) rest)
    omega

/-! ### The root's `is_end` flag never changes -/

theorem insertAux_is_end (c : Char) (w : List Char) (n : TrieNode) :
    TrieNode.is_end (insertAux n (c :: w)).1 = TrieNode.is_end n := by
  cases hf : assocFind (TrieNode.children n) c <;> simp [insertAux, hf]

theorem deleteAux_is_end (c : Char) (w : List Char) (n : TrieNode) :
    TrieNode.is_end (deleteAux n (c :: w)).1 = TrieNode.is_end n := by
  cases hf : assocFind (TrieNode.children n) c with
  | none => simp [deleteAux, hf]
  | some child => cases hp : (deleteAux child w).2.1 <;> simp [deleteAux, hf, hp]

theorem applyOp_root_is_end (t : Trie) (op : Op) :
    TrieNode.is_end (applyOp t op).root = TrieNode.is_end t.root := by
  cases op with
  | ins w =>
    cases w with
    | nil => simp [applyOp, Trie.insert]
    | cons c w => simp [applyOp, Trie.insert, insertAux_is_end]
  | del w =>
    cases w with
    | nil => simp [applyOp, Trie.delete]
    | cons c w => simp [applyOp, Trie.delete, deleteAux_is_end]

theorem applyOps_root_is_end (ops : List Op) (t : Trie) :
    TrieNode.is_end (applyOps t ops).root = TrieNode.is_end t.root := by
  induction ops generalizing t with
  | nil => rfl
  | cons op rest ih => rw [applyOps_cons, ih, applyOp_root_is_end]

theorem reachable_root_not_end (ops : List Op) :
    TrieNode.is_end (applyOps Trie.empty ops).root = false := by
  rw [applyOps_root_is_end]
  rfl

/-! ### Preservation of key uniqueness -/

theorem keyAbsent_iff_find_none (cs : List (Char × TrieNode)) (c : Char) :
    keyAbsent c cs = true ↔ assocFind cs c = none := by
  induction cs with
  | nil => simp [keyAbsent, assocFind]
  | cons p rest ih =>
    obtain ⟨d, n⟩ := p
    by_cases hdc : d = c <;> simp [keyAbsent, assocFind, hdc, ih]

theorem keyAbsent_set (cs : List (Char × TrieNode)) (c d : Char) (v : TrieNode) :
    keyAbsent d (assocSet cs c v) = keyAbsent d cs := by
  induction cs with
  | nil => simp [assocSet]
  | cons p rest ih =>
    obtain ⟨e, n⟩ := p
    by_cases hec : e = c
    · subst hec
      simp [assocSet, keyAbsent]
    · by_cases hed : e = d
      · subst hed
        simp [assocSet, keyAbsent, hec, ih]
      · simp [assocSet, keyAbsent, hec, hed, ih]

theorem keyAbsent_erase (cs : List (Char × TrieNode)) (c d : Char)
    (h : keyAbsent d cs = true) :
    keyAbsent d (assocErase cs c) = true := by
  induction cs with
  | nil => simpa [assocErase] using h
  | cons p rest ih =>
    obtain ⟨e, n⟩ := p
    by_cases hec : e = c <;> by_cases hed : e = d <;>
      simp [assocErase, keyAbsent, hec, hed] at h ⊢ <;> simp [ih, h]

theorem keyAbsent_append_single (cs : List (Char × TrieNode)) (c d : Char)
    (x : TrieNode) (h : keyAbsent d cs = true) (hcd : c ≠ d) :
    keyAbsent d (cs ++ [(c, x)]) = true := by
  induction cs with
  | nil => simp [keyAbsent, hcd]
  | cons p rest ih =>
    obtain ⟨e, n⟩ := p
    by_cases hed : e = d <;> simp [keyAbsent, hed] at h ⊢ <;> simp [ih, h]

theorem noDupKeys_set (cs : List (Char × TrieNode)) (c : Char) (v : TrieNode)
    (h : noDupKeys cs = true) :
    noDupKeys (assocSet cs c v) = true := by
  induction cs with
  | nil => simp [assocSet, noDupKeys]
  | cons p rest ih =>
    obtain ⟨e, n⟩ := p
    simp [noDupKeys] at h
    by_cases hec : e = c
    · subst hec
      simp [assocSet, noDupKeys, keyAbsent_set, h.1, h.2]
    · simp [assocSet, noDupKeys, hec, keyAbsent_set, h.1, h.2, ih h.2]

theorem noDupKeys_erase (cs : List (Char × TrieNode)) (c : Char)
    (h : noDupKeys cs = true) :
    noDupKeys (assocErase cs c) = true := by
  induction cs with
  | nil => simp [assocErase, noDupKeys]
  | cons p rest ih =>
    obtain ⟨e, n⟩ := p
    simp [noDupKeys] at h
    by_cases hec : e = c <;>
      simp [assocErase, noDupKeys, hec, keyAbsent_erase rest c e h.1, h.2, ih h.2]

theorem noDupKeys_append (cs : List (Char × TrieNode)) (c : Char) (x : TrieNode)
    (h : noDupKeys cs = true) (hf : assocFind cs c = none) :
    noDupKeys (cs ++ [(c, x)]) = true := by
  induction cs with
  | nil => simp [noDupKeys, keyAbsent]
  | cons p rest ih =>
    obtain ⟨d, n⟩ := p
    simp [noDupKeys] at h
    by_cases hdc : d = c
    · simp [assocFind, hdc] at hf
    · simp [assocFind, hdc] at hf
      simp [noDupKeys, keyAbsent_append_single rest c d x h.1 (fun hcd => hdc hcd.symm),
        ih h.2 hf]

theorem wfKeysList_find (cs : List (Char × TrieNode)) (c : Char) (x : TrieNode)
    (h : wfKeysList cs = true) (hf : assocFind cs c = some x) :
    TrieNode.wfKeys x = true := by
  induction cs with
  | nil => simp [assocFind] at hf
  | cons p rest ih =>
    obtain ⟨d, n⟩ := p
    simp [wfKeysList] at h
    by_cases hdc : d = c
    · simp [assocFind, hdc] at hf
      subst hf
      exact h.1
    · simp [assocFind, hdc] at hf
      exact ih h.2 hf

theorem wfKeysList_set (cs : List (Char × TrieNode)) (c : Char) (v : TrieNode)
    (h : wfKeysList cs = true) (hv : TrieNode.wfKeys v = true) :
    wfKeysList (assocSet cs c v) = true := by
  induction cs with
  | nil => simp [assocSet, wfKeysList]
  | cons p rest ih =>
    obtain ⟨d, n⟩ := p
    simp [wfKeysList] at h
    by_cases hdc : d = c <;> simp [assocSet, wfKeysList, hdc, hv, h.1, h.2, ih h.2]

theorem wfKeysList_erase (cs : List (Char × TrieNode)) (c : Char)
    (h : wfKeysList cs = true) :
    wfKeysList (assocErase cs c) = true := by
  induction cs with
  | nil => simp [assocErase, wfKeysList]
  | cons p rest ih =>
    obtain ⟨d, n⟩ := p
    simp [wfKeysList] at h
    by_cases hdc : d = c <;> simp [assocErase, wfKeysList, hdc, h.1, h.2, ih h.2]

theorem wfKeysList_append (cs : List (Char × TrieNode)) (c : Char) (x : TrieNode)
    (h : wfKeysList cs = true) (hx : TrieNode.wfKeys x = true) :
    wfKeysList (cs ++ [(c, x)]) = true := by
  induction cs with
  | nil => simp [wfKeysList, hx]
  | cons p rest ih =>
    obtain ⟨d, n⟩ := p
    simp [wfKeysList] at h
    simp [wfKeysList, h.1, ih h.2]

theorem insertAux_wf (w : List Char) (n : TrieNode)
    (h : TrieNode.wfKeys n = true) :
    TrieNode.wfKeys (insertAux n w).1 = true := by
  induction w generalizing n with
  | nil =>
    cases n with
    | mk cs e =>
      simp [TrieNode.wfKeys] at h
      simp [insertAux, TrieNode.wfKeys, h.1, h.2]
  | cons c w ih =>
    cases n with
    | mk cs e =>
      simp [TrieNode.wfKeys] at h
      cases hf : assocFind cs c with
      | some child =>
        have hchild := wfKeysList_find cs c child h.2 hf
        simp [insertAux, hf, TrieNode.wfKeys, noDupKeys_set cs c _ h.1,
          wfKeysList_set cs c _ h.2 (ih child hchild)]
      | none =>
        have hfresh : TrieNode.wfKeys (TrieNode.mk [] false) = true := by
          simp [TrieNode.wfKeys, noDupKeys, wfKeysList]
        simp [insertAux, hf, TrieNode.wfKeys, noDupKeys_append cs c _ h.1 hf,
          wfKeysList_append cs c _ h.2 (ih _ hfresh)]

theorem deleteAux_wf (w : List Char) (n : TrieNode)
    (h : TrieNode.wfKeys n = true) :
    TrieNode.wfKeys (deleteAux n w).1 = true := by
  induction w generalizing n with
  | nil =>
    cases n with
    | mk cs e =>
      simp [TrieNode.wfKeys] at h
      cases e <;> simp [deleteAux, TrieNode.wfKeys, h.1, h.2]
  | cons c w ih =>
    cases n with
    | mk cs e =>
      simp [TrieNode.wfKeys] at h
      cases hf : assocFind cs c with
      | none => simp [deleteAux, hf, TrieNode.wfKeys, h.1, h.2]
      | some child =>
        have hchild := wfKeysList_find cs c child h.2 hf
        cases hp : (deleteAux child w).2.1
        · simp [deleteAux, hf, hp, TrieNode.wfKeys, noDupKeys_set cs c _ h.1,
            wfKeysList_set cs c _ h.2 (ih child hchild)]
        · simp [deleteAux, hf, hp, TrieNode.wfKeys, noDupKeys_erase cs c h.1,
            wfKeysList_erase cs c h.2]

theorem applyOps_wf (ops : List Op) (t : Trie)
    (h : TrieNode.wfKeys t.root = true) :
    TrieNode.wfKeys (applyOps t ops).root = true := by
  induction ops generalizing t with
  | nil => exact h
  | cons op rest ih =>
    rw [applyOps_cons]
    apply ih
    cases op with
    | ins w =>
      by_cases hw : w = [] <;> simp [applyOp, Trie.insert, hw, insertAux_wf w t.root h, h]
    | del w =>
      by_cases hw : w = [] <;> simp [applyOp, Trie.delete, hw, deleteAux_wf w t.root h, h]

theorem reachable_wf (ops : List Op) :
    TrieNode.wfKeys (applyOps Trie.empty ops).root = true := by
  apply applyOps_wf
  simp [Trie.empty, TrieNode.wfKeys, noDupKeys, wfKeysList]

/-! ### The effect of deletion on membership -/

theorem assocFind_erase_self (cs : List (Char × TrieNode)) (c : Char)
    (h : noDupKeys cs = true) :
    assocFind (assocErase cs c) c = none := by
  induction cs with
  | nil => simp [assocErase, assocFind]
  | cons p rest ih =>
    obtain ⟨d, n⟩ := p
    simp [noDupKeys] at h
    by_cases hdc : d = c
    · subst hdc
      rw [← keyAbsent_iff_find_none]
      simpa [assocErase] using h.1
    · simp [assocErase, assocFind, hdc, ih h.2]

theorem deleteAux_cons_keep (cs : List (Char × TrieNode)) (e : Bool) (c : Char)
    (w : List Char) (child : TrieNode) (hf : assocFind cs c = some child)
    (hp : (deleteAux child w).2.1 = false) :
    (deleteAux (TrieNode.mk cs e) (c :: w)).1
      = TrieNode.mk (assocSet cs c (deleteAux child w).1) e := by
  simp [deleteAux, hf, hp]

theorem deleteAux_cons_prune (cs : List (Char × TrieNode)) (e : Bool) (c : Char)
    (w : List Char) (child : TrieNode) (hf : assocFind cs c = some child)
    (hp : (deleteAux child w).2.1 = true) :
    (deleteAux (TrieNode.mk cs e) (c :: w)).1 = TrieNode.mk (assocErase cs c) e := by
  simp [deleteAux, hf, hp]

theorem deleteAux_search (w : List Char) (n : TrieNode)
    (hwf : TrieNode.wfKeys n = true) :
    TrieNode.searchNode (deleteAux n w).1 w = false ∧
      ∀ v : List Char, v ≠ w →
        TrieNode.searchNode (deleteAux n w).1 v = TrieNode.searchNode n v := by
  induction w generalizing n with
  | nil =>
    cases n with
    | mk cs e =>
      cases e
      · constructor
        · simp [deleteAux, TrieNode.searchNode, TrieNode.traverse]
        · intro v hv
          simp [deleteAux]
      · constructor
        · simp [deleteAux, TrieNode.searchNode, TrieNode.traverse]
        · intro v hv
          cases v with
          | nil => exact absurd rfl hv
          | cons d v' =>
            simp [deleteAux, searchNode_cons]
  | cons c w ih =>
    cases n with
    | mk cs e =>
      simp [TrieNode.wfKeys] at hwf
      obtain ⟨hnd, hwl⟩ := hwf
      cases hf : assocFind cs c with
      | none =>
        constructor
        · simp [deleteAux, hf, searchNode_cons]
        · intro v hv
          simp [deleteAux, hf]
      | some child =>
        have hchild : TrieNode.wfKeys child = true := wfKeysList_find cs c child hwl hf
        obtain ⟨ih1, ih2⟩ := ih child hchild
        cases hp : (deleteAux child w).2.1
        · have hkeep := deleteAux_cons_keep cs e c w child hf hp
          have hfind : assocFind (assocSet cs c (deleteAux child w).1) c
              = some (deleteAux child w).1 := by
            apply assocFind_set_self
            simp [hf]
          constructor
          · rw [hkeep, searchNode_cons]
            simp [hfind, ih1]
          · intro v hv
            rw [hkeep]
            cases v with
            | nil => simp [TrieNode.searchNode, TrieNode.traverse]
            | cons d v' =>
              by_cases hdc : d = c
              · subst hdc
                have hv' : v' ≠ w := fun hh => hv (by rw [hh])
                rw [searchNode_cons, searchNode_cons]
                simp [hfind, hf, ih2 v' hv']
              · rw [searchNode_cons, searchNode_cons]
                simp [assocFind_set_ne cs c d _ hdc]
        · have hprune := deleteAux_cons_prune cs e c w child hf hp
          have hshape := deleteAux_prune_shape w child hp
          have hfe : assocFind (assocErase cs c) c = none :=
            assocFind_erase_self cs c hnd
          constructor
          · rw [hprune, searchNode_cons]
            simp [hfe]
          · intro v hv
            rw [hprune]
            cases v with
            | nil => simp [TrieNode.searchNode, TrieNode.traverse]
            | cons d v' =>
              by_cases hdc : d = c
              · subst hdc
                have hv' : v' ≠ w := fun hh => hv (by rw [hh])
                have hold : TrieNode.searchNode child v' = false := by
                  have h2 := ih2 v' hv'
                  rw [hshape] at h2
                  rw [← h2, searchNode_nil]
                  simp
                rw [searchNode_cons, searchNode_cons]
                simp [hfe, hf, hold]
              · rw [searchNode_cons, searchNode_cons]
                simp [assocFind_erase_ne cs c d hdc]

theorem delete_search_self (t : Trie) (w : List Char)
    (hwf : TrieNode.wfKeys t.root = true) (hw : w ≠ []) :
    Trie.search (Trie.delete t w).1 w = false := by
  simp [Trie.delete, hw, Trie.search]
  exact (deleteAux_search w t.root hwf).1

theorem delete_search_other (t : Trie) (w v : List Char)
    (hwf : TrieNode.wfKeys t.root = true) (hv : v ≠ w) :
    Trie.search (Trie.delete t w).1 v = Trie.search t v := by
  by_cases hw : w = []
  · simp [Trie.delete, hw]
  · simp [Trie.delete, hw, Trie.search]
    exact (deleteAux_search w t.root hwf).2 v hv

/-! ### The eager-pruning invariant -/

theorem assocSet_length (cs : List (Char × TrieNode)) (c : Char) (v : TrieNode) :
    (assocSet cs c v).length = cs.length := by
  induction cs with
  | nil => simp [assocSet]
  | cons p rest ih =>
    obtain ⟨d, n⟩ := p
    by_cases hdc : d = c <;> simp [assocSet, hdc, ih]

theorem assocSet_ne_nil (cs : List (Char × TrieNode)) (c : Char) (v : TrieNode)
    (h : cs ≠ []) : assocSet cs c v ≠ [] := by
  cases cs with
  | nil => exact absurd rfl h
  | cons p rest =>
    obtain ⟨d, n⟩ := p
    by_cases hdc : d = c <;> simp [assocSet, hdc]

theorem allLiveList_find (cs : List (Char × TrieNode)) (c : Char) (x : TrieNode)
    (h : allLiveList cs = true) (hf : assocFind cs c = some x) :
    TrieNode.live x = true ∧ TrieNode.allLive x = true := by
  induction cs with
  | nil => simp [assocFind] at hf
  | cons p rest ih =>
    obtain ⟨d, n⟩ := p
    simp [allLiveList] at h
    by_cases hdc : d = c
    · simp [assocFind, hdc] at hf
      subst hf
      exact ⟨h.1.1, h.1.2⟩
    · simp [assocFind, hdc] at hf
      exact ih h.2 hf

theorem allLiveList_set (cs : List (Char × TrieNode)) (c : Char) (v : TrieNode)
    (h : allLiveList cs = true) (hv : TrieNode.live v = true)
    (hav : TrieNode.allLive v = true) :
    allLiveList (assocSet cs c v) = true := by
  induction cs with
  | nil => simp [assocSet, allLiveList]
  | cons p rest ih =>
    obtain ⟨d, n⟩ := p
    simp [allLiveList] at h
    by_cases hdc : d = c <;>
      simp [assocSet, allLiveList, hdc, hv, hav, h.1.1, h.1.2, h.2, ih h.2]

theorem allLiveList_erase (cs : List (Char × TrieNode)) (c : Char)
    (h : allLiveList cs = true) :
    allLiveList (assocErase cs c) = true := by
  induction cs with
  | nil => simp [assocErase, allLiveList]
  | cons p rest ih =>
    obtain ⟨d, n⟩ := p
    simp [allLiveList] at h
    by_cases hdc : d = c <;>
      simp [assocErase, allLiveList, hdc, h.1.1, h.1.2, h.2, ih h.2]

theorem allLiveList_append (cs : List (Char × TrieNode)) (c : Char) (x : TrieNode)
    (h : allLiveList cs = true) (hx : TrieNode.live x = true)
    (hax : TrieNode.allLive x = true) :
    allLiveList (cs ++ [(c, x)]) = true := by
  induction cs with
  | nil => simp [allLiveList, hx, hax]
  | cons p rest ih =>
    obtain ⟨d, n⟩ := p
    simp [allLiveList] at h
    simp [allLiveList, h.1.1, h.1.2, ih h.2]

theorem insertAux_live (w : List Char) (n : TrieNode) :
    TrieNode.live (insertAux n w).1 = true := by
  cases w with
  | nil => simp [insertAux, TrieNode.live]
  | cons c w =>
    cases n with
    | mk cs e =>
      cases hf : assocFind cs c with
      | some child =>
        have hne : cs ≠ [] := by
          intro hh
          rw [hh] at hf
          simp [assocFind] at hf
        simp [insertAux, hf, TrieNode.live, List.isEmpty_iff]
        exact Or.inr (assocSet_ne_nil cs c (insertAux child w).1 hne)
      | none => simp [insertAux, hf, TrieNode.live, List.isEmpty_iff]

theorem insertAux_allLive (w : List Char) (n : TrieNode)
    (h : TrieNode.allLive n = true) :
    TrieNode.allLive (insertAux n w).1 = true := by
  induction w generalizing n with
  | nil =>
    cases n with
    | mk cs e => simpa [insertAux, TrieNode.allLive] using h
  | cons c w ih =>
    cases n with
    | mk cs e =>
      simp [TrieNode.allLive] at h
      cases hf : assocFind cs c with
      | some child =>
        obtain ⟨hl, ha⟩ := allLiveList_find cs c child h hf
        simp [insertAux, hf, TrieNode.allLive,
          allLiveList_set cs c _ h (insertAux_live w child) (ih child ha)]
      | none =>
        have hfresh : TrieNode.allLive (TrieNode.mk [] false) = true := by
          simp [TrieNode.allLive, allLiveList]
        simp [insertAux, hf, TrieNode.allLive,
          allLiveList_append cs c _ h (insertAux_live w _) (ih _ hfresh)]

theorem deleteAux_allLive (w : List Char) (n : TrieNode)
    (h : TrieNode.allLive n = true) :
    TrieNode.allLive (deleteAux n w).1 = true ∧
      ((deleteAux n w).2.1 = false → TrieNode.live n = true →
        TrieNode.live (deleteAux n w).1 = true) := by
  induction w generalizing n with
  | nil =>
    cases n with
    | mk cs e =>
      cases e
      · exact ⟨by simpa [deleteAux] using h, fun _ hl => by simpa [deleteAux] using hl⟩
      · constructor
        · simpa [deleteAux, TrieNode.allLive] using h
        · intro hp _
          simp [deleteAux] at hp ⊢
          simp [TrieNode.live, hp]
  | cons c w ih =>
    cases n with
    | mk cs e =>
      simp [TrieNode.allLive] at h
      cases hf : assocFind cs c with
      | none =>
        refine ⟨by simpa [deleteAux, hf, TrieNode.allLive] using h, fun _ hl => ?_⟩
        simpa [deleteAux, hf] using hl
      | some child =>
        obtain ⟨hl, ha⟩ := allLiveList_find cs c child h hf
        obtain ⟨iha, ihl⟩ := ih child ha
        have hne : cs ≠ [] := by
          intro hh
          rw [hh] at hf
          simp [assocFind] at hf
        cases hp : (deleteAux child w).2.1
        · have hlive := ihl hp hl
          constructor
          · rw [deleteAux_cons_keep cs e c w child hf hp]
            simp [TrieNode.allLive, allLiveList_set cs c _ h hlive iha]
          · intro _ _
            rw [deleteAux_cons_keep cs e c w child hf hp]
            simp [TrieNode.live, List.isEmpty_iff]
            exact Or.inr (assocSet_ne_nil cs c (deleteAux child w).1 hne)
        · constructor
          · rw [deleteAux_cons_prune cs e c w child hf hp]
            simp [TrieNode.allLive, allLiveList_erase cs c h]
          · intro hflag _
            rw [deleteAux_cons_prune cs e c w child hf hp]
            simp [deleteAux, hf, hp] at hflag
            simp [TrieNode.live, List.isEmpty_iff]
            cases e
            · exact Or.inr (hflag rfl)
            · exact Or.inl rfl

theorem applyOps_allLive (ops : List Op) (t : Trie)
    (h : TrieNode.allLive t.root = true) :
    TrieNode.allLive (applyOps t ops).root = true := by
  induction ops generalizing t with
  | nil => exact h
  | cons op rest ih =>
    rw [applyOps_cons]
    apply ih
    cases op with
    | ins w =>
      by_cases hw : w = [] <;>
        simp [applyOp, Trie.insert, hw, insertAux_allLive w t.root h, h]
    | del w =>
      by_cases hw : w = [] <;>
        simp [applyOp, Trie.delete, hw, (deleteAux_allLive w t.root h).1, h]

/-! ### The DFS word enumeration -/

mutual

theorem dfsWords_none : ∀ (n : TrieNode) (path : List Char) (acc : List (List Char)),
    dfsWords none n path acc = acc ++ subtreeWords n path
  | .mk cs e, path, acc => by
    rw [show dfsWords none (.mk cs e) path acc
      = dfsList none cs path (if e then acc ++ [path] else acc) from by
        simp [dfsWords, limitHit]]
    rw [dfsList_none cs path _]
    cases e <;> simp [subtreeWords]

theorem dfsList_none : ∀ (cs : List (Char × TrieNode)) (path : List Char)
    (acc : List (List Char)),
    dfsList none cs path acc = acc ++ subtreeWordsList cs path
  | [], path, acc => by simp [dfsList, subtreeWordsList]
  | (c, child) :: rest, path, acc => by
    rw [show dfsList none ((c, child) :: rest) path acc
      = dfsList none rest path (dfsWords none child (path ++ [c]) acc) from rfl]
    rw [dfsList_none rest path _, dfsWords_none child (path ++ [c]) acc]
    simp [subtreeWordsList]

end

mutual

theorem subtreeWords_length : ∀ (n : TrieNode) (path : List Char),
    (subtreeWords n path).length = TrieNode.countWords n
  | .mk cs e, path => by
    cases e <;>
      simp [subtreeWords, TrieNode.countWords, subtreeWordsList_length cs path] <;>
      omega

theorem subtreeWordsList_length : ∀ (cs : List (Char × TrieNode)) (path : List Char),
    (subtreeWordsList cs path).length = countWordsList cs
  | [], path => by simp [subtreeWordsList, countWordsList]
  | (c, child) :: rest, path => by
    simp [subtreeWordsList, countWordsList, subtreeWords_length child (path ++ [c]),
      subtreeWordsList_length rest path]

end

mutual

theorem subtreeWords_shape : ∀ (n : TrieNode) (path x : List Char),
    x ∈ subtreeWords n path → ∃ s, x = path ++ s
  | .mk cs e, path, x => by
    intro hx
    simp only [subtreeWords] at hx
    rcases List.mem_append.mp hx with h1 | h2
    · cases e
      · simp at h1
      · simp at h1
        exact ⟨[], by simp [h1]⟩
    · obtain ⟨c, s, hxe, _⟩ := subtreeWordsList_shape cs path x h2
      exact ⟨c :: s, hxe⟩

theorem subtreeWordsList_shape : ∀ (cs : List (Char × TrieNode)) (path x : List Char),
    x ∈ subtreeWordsList cs path → ∃ c s, x = path ++ c :: s ∧ keyAbsent c cs = false
  | [], path, x => by simp [subtreeWordsList]
  | (d, n) :: rest, path, x => by
    intro hx
    simp only [subtreeWordsList] at hx
    rcases List.mem_append.mp hx with h1 | h2
    · obtain ⟨s, hs⟩ := subtreeWords_shape n (path ++ [d]) x h1
      exact ⟨d, s, by simp [hs], by simp [keyAbsent]⟩
    · obtain ⟨c, s, hxe, hk⟩ := subtreeWordsList_shape rest path x h2
      refine ⟨c, s, hxe, ?_⟩
      by_cases hdc : d = c <;> simp [keyAbsent, hdc, hk]

end

mutual

theorem subtreeWords_mem : ∀ (n : TrieNode) (path x : List Char),
    TrieNode.wfKeys n = true →
    (x ∈ subtreeWords n path ↔
      ∃ s, x = path ++ s ∧ TrieNode.searchNode n s = true)
  | .mk cs e, path, x => by
    intro hwf
    simp [TrieNode.wfKeys] at hwf
    constructor
    · intro hx
      simp only [subtreeWords] at hx
      rcases List.mem_append.mp hx with h1 | h2
      · cases e
        · simp at h1
        · simp at h1
          exact ⟨[], by simp [h1], by simp [TrieNode.searchNode, TrieNode.traverse]⟩
      · obtain ⟨c, child, s, hf, hxe, hs⟩ :=
          (subtreeWordsList_mem cs path x hwf.1 hwf.2).mp h2
        refine ⟨c :: s, hxe, ?_⟩
        rw [searchNode_cons]
        simp [hf, hs]
    · rintro ⟨s, hxe, hs⟩
      simp only [subtreeWords]
      apply List.mem_append.mpr
      cases s with
      | nil =>
        left
        have he : e = true := by
          simpa [TrieNode.searchNode, TrieNode.traverse] using hs
        simp [he, hxe]
      | cons c s' =>
        right
        rw [searchNode_cons] at hs
        simp only [TrieNode.children_mk] at hs
        cases hf : assocFind cs c with
        | none =>
          rw [hf] at hs
          simp at hs
        | some child =>
          rw [hf] at hs
          simp at hs
          exact (subtreeWordsList_mem cs path x hwf.1 hwf.2).mpr
            ⟨c, child, s', hf, hxe, hs⟩

theorem subtreeWordsList_mem : ∀ (cs : List (Char × TrieNode)) (path x : List Char),
    noDupKeys cs = true → wfKeysList cs = true →
    (x ∈ subtreeWordsList cs path ↔
      ∃ c child s, assocFind cs c = some child ∧ x = path ++ c :: s ∧
        TrieNode.searchNode child s = true)
  | [], path, x => by simp [subtreeWordsList, assocFind]
  | (d, n) :: rest, path, x => by
    intro hnd hwl
    simp [noDupKeys] at hnd
    simp [wfKeysList] at hwl
    constructor
    · intro hx
      simp only [subtreeWordsList] at hx
      rcases List.mem_append.mp hx with h1 | h2
      · obtain ⟨s, hxe, hs⟩ := (subtreeWords_mem n (path ++ [d]) x hwl.1).mp h1
        exact ⟨d, n, s, by simp [assocFind], by simp [hxe], hs⟩
      · obtain ⟨c, child, s, hf, hxe, hs⟩ :=
          (subtreeWordsList_mem rest path x hnd.2 hwl.2).mp h2
        have hdc : d ≠ c := by
          intro hh
          subst hh
          rw [(keyAbsent_iff_find_none rest d).mp hnd.1] at hf
          exact Option.noConfusion hf
        exact ⟨c, child, s, by simp [assocFind, hdc, hf], hxe, hs⟩
    · rintro ⟨c, child, s, hf, hxe, hs⟩
      simp only [subtreeWordsList]
      apply List.mem_append.mpr
      by_cases hdc : d = c
      · subst hdc
        simp [assocFind] at hf
        subst hf
        left
        exact (subtreeWords_mem n (path ++ [d]) x hwl.1).mpr ⟨s, by simp [hxe], hs⟩
      · right
        simp [assocFind, hdc] at hf
        exact (subtreeWordsList_mem rest path x hnd.2 hwl.2).mpr
          ⟨c, child, s, hf, hxe, hs⟩

end

mutual

theorem subtreeWords_nodup : ∀ (n : TrieNode) (path : List Char),
    TrieNode.wfKeys n = true → (subtreeWords n path).Nodup
  | .mk cs e, path => by
    intro hwf
    simp [TrieNode.wfKeys] at hwf
    have hlist := subtreeWordsList_nodup cs path hwf.1 hwf.2
    simp only [subtreeWords]
    refine List.Nodup.append ?_ hlist ?_
    · cases e <;> simp
    · intro a ha hb
      cases e
      · simp at ha
      · simp at ha
        obtain ⟨c, s, hxe, _⟩ := subtreeWordsList_shape cs path a hb
        rw [ha] at hxe
        simp at hxe

theorem subtreeWordsList_nodup : ∀ (cs : List (Char × TrieNode)) (path : List Char),
    noDupKeys cs = true → wfKeysList cs = true → (subtreeWordsList cs path).Nodup
  | [], path => by simp [subtreeWordsList]
  | (d, n) :: rest, path => by
    intro hnd hwl
    simp [noDupKeys] at hnd
    simp [wfKeysList] at hwl
    simp only [subtreeWordsList]
    refine List.Nodup.append (subtreeWords_nodup n (path ++ [d]) hwl.1)
      (subtreeWordsList_nodup rest path hnd.2 hwl.2) ?_
    intro a ha hb
    obtain ⟨s, hsa⟩ := subtreeWords_shape n (path ++ [d]) a ha
    obtain ⟨c, s', hsb, hk⟩ := subtreeWordsList_shape rest path a hb
    rw [hsa, List.append_assoc] at hsb
    simp at hsb
    rw [← hsb.1, hnd.1] at hk
    exact Bool.noConfusion hk

end

mutual

theorem dfsWords_sub : ∀ (lim : Option Int) (n : TrieNode) (path : List Char)
    (acc : List (List Char)) (x : List Char),
    x ∈ dfsWords lim n path acc → x ∈ acc ∨ x ∈ subtreeWords n path
  | lim, .mk cs e, path, acc, x => by
    intro hx
    rw [show dfsWords lim (.mk cs e) path acc
      = if limitHit lim acc.length then acc
        else dfsList lim cs path (if e then acc ++ [path] else acc) from rfl] at hx
    by_cases hl : limitHit lim acc.length
    · rw [if_pos hl] at hx
      exact Or.inl hx
    · rw [if_neg hl] at hx
      rcases dfsList_sub lim cs path _ x hx with h1 | h2
      · cases e
        · exact Or.inl (by simpa using h1)
        · simp at h1
          rcases h1 with h1 | h1
          · exact Or.inl h1
          · right
            simp [subtreeWords, h1]
      · right
        simp [subtreeWords, h2]

theorem dfsList_sub : ∀ (lim : Option Int) (cs : List (Char × TrieNode))
    (path : List Char) (acc : List (List Char)) (x : List Char),
    x ∈ dfsList lim cs path acc → x ∈ acc ∨ x ∈ subtreeWordsList cs path
  | lim, [], path, acc, x => fun hx => Or.inl hx
  | lim, (c, child) :: rest, path, acc, x => by
    intro hx
    rw [show dfsList lim ((c, child) :: rest) path acc
      = dfsList lim rest path (dfsWords lim child (path ++ [c]) acc) from rfl] at hx
    rcases dfsList_sub lim rest path _ x hx with h1 | h2
    · rcases dfsWords_sub lim child (path ++ [c]) acc x h1 with ha | hb
      · exact Or.inl ha
      · right
        simp [subtreeWordsList, hb]
    · right
      simp [subtreeWordsList, h2]

end

mutual

theorem dfsWords_le : ∀ (k : Int) (n : TrieNode) (path : List Char)
    (acc : List (List Char)), (acc.length : Int) ≤ k →
    ((dfsWords (some k) n path acc).length : Int) ≤ k
  | k, .mk cs e, path, acc => by
    intro hacc
    rw [show dfsWords (some k) (.mk cs e) path acc
      = if limitHit (some k) acc.length then acc
        else dfsList (some k) cs path (if e then acc ++ [path] else acc) from rfl]
    by_cases hl : limitHit (some k) acc.length
    · rw [if_pos hl]
      exact hacc
    · rw [if_neg hl]
      have hlt : (acc.length : Int) < k := by
        simp [limitHit] at hl
        exact hl
      apply dfsList_le
      cases e <;> simp <;> omega

theorem dfsList_le : ∀ (k : Int) (cs : List (Char × TrieNode)) (path : List Char)
    (acc : List (List Char)), (acc.length : Int) ≤ k →
    ((dfsList (some k) cs path acc).length : Int) ≤ k
  | k, [], path, acc => fun h => h
  | k, (c, child) :: rest, path, acc => fun hacc =>
    dfsList_le k rest path _ (dfsWords_le k child (path ++ [c]) acc hacc)

end

/-! ### Traversal composition -/

theorem traverse_append (n : TrieNode) (a b : List Char) :
    TrieNode.traverse n (a ++ b)
      = (TrieNode.traverse n a).bind (fun m => TrieNode.traverse m b) := by
  induction a generalizing n with
  | nil => simp [TrieNode.traverse]
  | cons c a ih =>
    cases hf : assocFind (TrieNode.children n) c <;>
      simp [TrieNode.traverse, hf, ih]

theorem searchNode_append (n m : TrieNode) (p s : List Char)
    (h : TrieNode.traverse n p = some m) :
    TrieNode.searchNode n (p ++ s) = TrieNode.searchNode m s := by
  unfold TrieNode.searchNode
  rw [traverse_append, h]
  rfl

theorem searchNode_append_none (n : TrieNode) (p s : List Char)
    (h : TrieNode.traverse n p = none) :
    TrieNode.searchNode n (p ++ s) = false := by
  unfold TrieNode.searchNode
  rw [traverse_append, h]
  rfl

theorem traverse_isSome_of_search (n : TrieNode) (p s : List Char)
    (h : TrieNode.searchNode n (p ++ s) = true) :
    (TrieNode.traverse n p).isSome = true := by
  cases ht : TrieNode.traverse n p with
  | none => rw [searchNode_append_none n p s ht] at h; exact Bool.noConfusion h
  | some m => simp

theorem traverse_wf (p : List Char) (n m : TrieNode)
    (hwf : TrieNode.wfKeys n = true) (h : TrieNode.traverse n p = some m) :
    TrieNode.wfKeys m = true := by
  induction p generalizing n with
  | nil =>
    simp [TrieNode.traverse] at h
    rw [← h]
    exact hwf
  | cons c p ih =>
    cases n with
    | mk cs e =>
      simp [TrieNode.wfKeys] at hwf
      cases hf : assocFind cs c with
      | none => simp [TrieNode.traverse, hf] at h
      | some child =>
        simp [TrieNode.traverse, hf] at h
        exact ih child (wfKeysList_find cs c child hwf.2 hf) h

theorem insert_present_size (t : Trie) (w : List Char)
    (h : Trie.search t w = true) :
    (Trie.insert t w).size = t.size := by
  by_cases hw : w = []
  · simp [Trie.insert, hw]
  · have hs := insertAux_snd w t.root
    rw [show Trie.search t w = TrieNode.searchNode t.root w from rfl] at h
    rw [h] at hs
    simp [Trie.insert, hw, hs]

theorem delete_failed_size (t : Trie) (w : List Char)
    (h : (Trie.delete t w).2 = false) :
    (Trie.delete t w).1.size = t.size := by
  by_cases hw : w = []
  · simp [Trie.delete, hw]
  · simp [Trie.delete, hw] at h ⊢
    rw [deleteAux_dec]
    rw [show Trie.search t w = TrieNode.searchNode t.root w from rfl] at h
    simp [h]

/-! ### The claims -/

/-- C1: for every trie reachable from the empty trie and every word `W`,
`delete(W)` returns `true` iff `search(W)` was `true` immediately before the
call, and for every non-empty `W`, `search(W)` is `false` after `delete(W)`
completes. -/
theorem C1_delete_result_and_removal (ops : List Op) (w : List Char) :
    (Trie.delete (applyOps Trie.empty ops) w).2
        = Trie.search (applyOps Trie.empty ops) w ∧
      (w ≠ [] →
        Trie.search (Trie.delete (applyOps Trie.empty ops) w).1 w = false) := by
  constructor
  · by_cases hw : w = []
    · subst hw
      rw [show Trie.search (applyOps Trie.empty ops) []
        = TrieNode.is_end (applyOps Trie.empty ops).root from rfl]
      simp [Trie.delete, reachable_root_not_end ops]
    · simp [Trie.delete, hw]
  · intro hw
    exact delete_search_self _ w (reachable_wf ops) hw

/-- Witness for C1 at the one-word trie containing "a". -/
theorem C1_witness :
    ((['a'] : List Char) ≠ [] ∧
      Trie.search (Trie.delete (applyOps Trie.empty [Op.ins ['a']]) ['a']).1 ['a']
        = false) ∧
    (Trie.delete (applyOps Trie.empty [Op.ins ['a']]) ['a']).2
        = Trie.search (applyOps Trie.empty [Op.ins ['a']]) ['a'] :=
  ⟨⟨by decide, (C1_delete_result_and_removal [Op.ins ['a']] ['a']).2 (by decide)⟩,
    (C1_delete_result_and_removal [Op.ins ['a']] ['a']).1⟩

/-- C2: in every reachable trie state, `size()` equals the number of nodes
with `is_end = true`, and equals the sum over the trace of `+1` per insert of
a new word and `-1` per successful delete; moreover inserting an
already-present word or deleting with result `false` leaves `size()`
unchanged. -/
theorem C2_size_invariant (ops : List Op) :
    (applyOps Trie.empty ops).size
        = (TrieNode.countWords (applyOps Trie.empty ops).root : Int) ∧
      (applyOps Trie.empty ops).size = traceDelta Trie.empty ops ∧
      (∀ w, Trie.search (applyOps Trie.empty ops) w = true →
        (Trie.insert (applyOps Trie.empty ops) w).size
          = (applyOps Trie.empty ops).size) ∧
      (∀ w, (Trie.delete (applyOps Trie.empty ops) w).2 = false →
        (Trie.delete (applyOps Trie.empty ops) w).1.size
          = (applyOps Trie.empty ops).size) := by
  refine ⟨applyOps_size_count ops Trie.empty (by simp [Trie.empty,
      TrieNode.countWords, countWordsList]), ?_,
    fun w h => insert_present_size _ w h,
    fun w h => delete_failed_size _ w h⟩
  have := applyOps_size ops Trie.empty
  simpa [Trie.empty] using this

/-- Witness for C2: a duplicate insert and a failed delete on the trie
containing "a". -/
theorem C2_witness :
    (Trie.search (applyOps Trie.empty [Op.ins ['a']]) ['a'] = true ∧
      (Trie.insert (applyOps Trie.empty [Op.ins ['a']]) ['a']).size
        = (applyOps Trie.empty [Op.ins ['a']]).size) ∧
    ((Trie.delete (applyOps Trie.empty [Op.ins ['a']]) ['b']).2 = false ∧
      (Trie.delete (applyOps Trie.empty [Op.ins ['a']]) ['b']).1.size
        = (applyOps Trie.empty [Op.ins ['a']]).size) :=
  ⟨⟨by decide, (C2_size_invariant [Op.ins ['a']]).2.2.1 ['a'] (by decide)⟩,
    ⟨by decide, (C2_size_invariant [Op.ins ['a']]).2.2.2 ['b'] (by decide)⟩⟩

/-- C3: after any delete on any reachable trie, every node other than the
root is terminal or has children (`allLive` of the root asserts exactly that
no strict descendant of the root is non-terminal and childless). -/
theorem C3_eager_pruning (ops : List Op) (w : List Char) :
    TrieNode.allLive (Trie.delete (applyOps Trie.empty ops) w).1.root = true := by
  have h := applyOps_allLive ops Trie.empty
    (by simp [Trie.empty, TrieNode.allLive, allLiveList])
  by_cases hw : w = []
  · simpa [Trie.delete, hw] using h
  · simp [Trie.delete, hw]
    exact (deleteAux_allLive w _ h).1

/-- C7: deleting a word that is not stored returns `false` and leaves the
trie object (root node graph and size) completely unchanged — stated for
arbitrary trie states, reachable or not. -/
theorem C7_delete_absent_noop (t : Trie) (w : List Char)
    (h : Trie.search t w = false) :
    Trie.delete t w = (t, false) := by
  by_cases hw : w = []
  · simp [Trie.delete, hw]
  · have hn := deleteAux_noop w t.root h
    simp [Trie.delete, hw, h, hn]

/-- Witness for C7: deleting "a" from the empty trie. -/
theorem C7_witness :
    Trie.search Trie.empty ['a'] = false ∧
      Trie.delete Trie.empty ['a'] = (Trie.empty, false) :=
  ⟨by decide, C7_delete_absent_noop Trie.empty ['a'] (by decide)⟩

/-- C8: on every reachable trie the empty word is a defined edge case:
`insert` and `delete` are no-ops (`delete` returning `false`), `starts_with`
is `true`, and `search` returns the root's `is_end` flag, which is `false`. -/
theorem C8_empty_word (ops : List Op) :
    Trie.insert (applyOps Trie.empty ops) [] = applyOps Trie.empty ops ∧
      Trie.delete (applyOps Trie.empty ops) []
        = (applyOps Trie.empty ops, false) ∧
      Trie.starts_with (applyOps Trie.empty ops) [] = true ∧
      Trie.search (applyOps Trie.empty ops) []
        = TrieNode.is_end (applyOps Trie.empty ops).root ∧
      Trie.search (applyOps Trie.empty ops) [] = false := by
  refine ⟨by simp [Trie.insert], by simp [Trie.delete],
    by simp [Trie.starts_with, TrieNode.traverse], rfl, ?_⟩
  rw [show Trie.search (applyOps Trie.empty ops) []
    = TrieNode.is_end (applyOps Trie.empty ops).root from rfl]
  exact reachable_root_not_end ops

/-- C4: delete never over-prunes — on a reachable trie, deleting `W` leaves
every other stored word `V` searchable. -/
theorem C4_no_overprune (ops : List Op) (v w : List Char)
    (hvw : v ≠ w) (hv : Trie.search (applyOps Trie.empty ops) v = true) :
    Trie.search (Trie.delete (applyOps Trie.empty ops) w).1 v = true := by
  rw [delete_search_other _ w v (reachable_wf ops) hvw]
  exact hv

/-- Witness for C4: the spec's example — insert "car", "card", "care",
delete "card"; "car" and "care" stay, "card" is gone. -/
theorem C4_witness :
    ((['c', 'a', 'r'] : List Char) ≠ ['c', 'a', 'r', 'd'] ∧
      Trie.search (applyOps Trie.empty
        [Op.ins ['c', 'a', 'r'], Op.ins ['c', 'a', 'r', 'd'],
          Op.ins ['c', 'a', 'r', 'e']]) ['c', 'a', 'r'] = true ∧
      Trie.search (Trie.delete (applyOps Trie.empty
        [Op.ins ['c', 'a', 'r'], Op.ins ['c', 'a', 'r', 'd'],
          Op.ins ['c', 'a', 'r', 'e']]) ['c', 'a', 'r', 'd']).1
        ['c', 'a', 'r'] = true) ∧
    ((['c', 'a', 'r', 'e'] : List Char) ≠ ['c', 'a', 'r', 'd'] ∧
      Trie.search (Trie.delete (applyOps Trie.empty
        [Op.ins ['c', 'a', 'r'], Op.ins ['c', 'a', 'r', 'd'],
          Op.ins ['c', 'a', 'r', 'e']]) ['c', 'a', 'r', 'd']).1
        ['c', 'a', 'r', 'e'] = true) ∧
    Trie.search (Trie.delete (applyOps Trie.empty
      [Op.ins ['c', 'a', 'r'], Op.ins ['c', 'a', 'r', 'd'],
        Op.ins ['c', 'a', 'r', 'e']]) ['c', 'a', 'r', 'd']).1
      ['c', 'a', 'r', 'd'] = false :=
  ⟨⟨by decide, by decide,
      C4_no_overprune
        [Op.ins ['c', 'a', 'r'], Op.ins ['c', 'a', 'r', 'd'],
          Op.ins ['c', 'a', 'r', 'e']]
        ['c', 'a', 'r'] ['c', 'a', 'r', 'd'] (by decide) (by decide)⟩,
    ⟨by decide,
      C4_no_overprune
        [Op.ins ['c', 'a', 'r'], Op.ins ['c', 'a', 'r', 'd'],
          Op.ins ['c', 'a', 'r', 'e']]
        ['c', 'a', 'r', 'e'] ['c', 'a', 'r', 'd'] (by decide) (by decide)⟩,
    by decide⟩

/-- C9: a zero or negative limit makes `get_words_with_prefix` return the
empty list on any trie state, for any prefix. -/
theorem C9_nonpositive_limit (t : Trie) (p : List Char) (k : Int)
    (hk : k ≤ 0) :
    Trie.get_words_with_prefix t p (some k) = [] := by
  cases ht : TrieNode.traverse t.root p with
  | none => simp [ Trie.get_words_with_prefix, ht]
  | some n =>
    cases n with
    | mk cs e =>
      simp only [ Trie.get_words_with_prefix, ht]
      rw [show dfsWords (some k) (TrieNode.mk cs e) p []
        = if limitHit (some k) ([] : List (List Char)).length then []
          else dfsList (some k) cs p
            (if e then ([] : List (List Char)) ++ [p] else []) from rfl]
      rw [if_pos]
      simp [limitHit]
      omega

/-- Witness for C9: limit 0 on a trie that stores a word with the queried
prefix. -/
theorem C9_witness :
    (0 : Int) ≤ 0 ∧
      Trie.search (applyOps Trie.empty [Op.ins ['a']]) ['a'] = true ∧
      Trie.get_words_with_prefix (applyOps Trie.empty [Op.ins ['a']]) []
        (some 0) = [] :=
  ⟨by decide, by decide,
    C9_nonpositive_limit (applyOps Trie.empty [Op.ins ['a']]) [] 0 (by decide)⟩

/-- C10: deleting a stored word `W` that is a strict prefix of another
stored word `X` returns `true` and prunes nothing — afterwards `search(W)`
is `false` while `starts_with(W)` and `search(X)` are still `true`. -/
theorem C10_delete_strict_prefix (ops : List Op) (w x : List Char)
    (hwx : w ≠ x) (hpre : w <+: x)
    (hw : Trie.search (applyOps Trie.empty ops) w = true)
    (hx : Trie.search (applyOps Trie.empty ops) x = true) :
    (Trie.delete (applyOps Trie.empty ops) w).2 = true ∧
      Trie.search (Trie.delete (applyOps Trie.empty ops) w).1 w = false ∧
      Trie.starts_with (Trie.delete (applyOps Trie.empty ops) w).1 w = true ∧
      Trie.search (Trie.delete (applyOps Trie.empty ops) w).1 x = true := by
  have hwne : w ≠ [] := by
    intro hh
    subst hh
    rw [show Trie.search (applyOps Trie.empty ops) []
      = TrieNode.is_end (applyOps Trie.empty ops).root from rfl,
      reachable_root_not_end ops] at hw
    exact Bool.noConfusion hw
  have hx' : Trie.search (Trie.delete (applyOps Trie.empty ops) w).1 x = true := by
    rw [delete_search_other _ w x (reachable_wf ops) (fun hh => hwx hh.symm)]
    exact hx
  refine ⟨?_, delete_search_self _ w (reachable_wf ops) hwne, ?_, hx'⟩
  · simp [Trie.delete, hwne, hw]
  · obtain ⟨s, hs⟩ := hpre
    rw [show Trie.starts_with (Trie.delete (applyOps Trie.empty ops) w).1 w
      = (TrieNode.traverse (Trie.delete (applyOps Trie.empty ops) w).1.root
          w).isSome from rfl]
    apply traverse_isSome_of_search _ w s
    rw [hs]
    exact hx'

/-- Witness for C10: "a" is a strict prefix of "ab", both stored. -/
theorem C10_witness :
    ((['a'] : List Char) ≠ ['a', 'b'] ∧ (['a'] : List Char) <+: ['a', 'b'] ∧
      Trie.search (applyOps Trie.empty [Op.ins ['a'], Op.ins ['a', 'b']])
        ['a'] = true ∧
      Trie.search (applyOps Trie.empty [Op.ins ['a'], Op.ins ['a', 'b']])
        ['a', 'b'] = true) ∧
    ((Trie.delete (applyOps Trie.empty [Op.ins ['a'], Op.ins ['a', 'b']])
        ['a']).2 = true ∧
      Trie.search (Trie.delete (applyOps Trie.empty
        [Op.ins ['a'], Op.ins ['a', 'b']]) ['a']).1 ['a'] = false ∧
      Trie.starts_with (Trie.delete (applyOps Trie.empty
        [Op.ins ['a'], Op.ins ['a', 'b']]) ['a']).1 ['a'] = true ∧
      Trie.search (Trie.delete (applyOps Trie.empty
        [Op.ins ['a'], Op.ins ['a', 'b']]) ['a']).1 ['a', 'b'] = true) :=
  ⟨⟨by decide, ⟨['b'], by decide⟩, by decide, by decide⟩,
    C10_delete_strict_prefix [Op.ins ['a'], Op.ins ['a', 'b']] ['a'] ['a', 'b']
      (by decide) ⟨['b'], by decide⟩ (by decide) (by decide)⟩

/-- C5: `count_prefix(P)` equals the number of distinct stored words with
prefix `P` (exhibited as the length of a duplicate-free list enumerating
exactly those words), `count_prefix("")` equals `size()`, and the count is 0
when no node exists at the path spelled by `P`. -/
theorem C5_count_correct (ops : List Op) (p : List Char) :
    (∃ l : List (List Char), l.Nodup ∧
        (∀ w, w ∈ l ↔
          (Trie.search (applyOps Trie.empty ops) w = true ∧ p <+: w)) ∧
        Trie.count_prefix (applyOps Trie.empty ops) p = l.length) ∧
      (( Trie.count_prefix (applyOps Trie.empty ops) [] : Int)
        = (applyOps Trie.empty ops).size) ∧
      (Trie.starts_with (applyOps Trie.empty ops) p = false →
        Trie.count_prefix (applyOps Trie.empty ops) p = 0) := by
  have hwf := reachable_wf ops
  refine ⟨?_, ?_, ?_⟩
  · cases ht : TrieNode.traverse (applyOps Trie.empty ops).root p with
    | none =>
      refine ⟨[], List.nodup_nil, ?_, by simp [ Trie.count_prefix, ht]⟩
      intro w
      simp only [List.not_mem_nil, false_iff, not_and]
      rintro hs ⟨s, hps⟩
      rw [show Trie.search (applyOps Trie.empty ops) w
        = TrieNode.searchNode (applyOps Trie.empty ops).root w from rfl, ← hps,
        searchNode_append_none _ p s ht] at hs
      exact Bool.noConfusion hs
    | some n =>
      have hnwf := traverse_wf p _ n hwf ht
      refine ⟨subtreeWords n p, subtreeWords_nodup n p hnwf, ?_, ?_⟩
      · intro w
        rw [subtreeWords_mem n p w hnwf]
        constructor
        · rintro ⟨s, hw, hs⟩
          refine ⟨?_, ⟨s, hw.symm⟩⟩
          rw [show Trie.search (applyOps Trie.empty ops) w
            = TrieNode.searchNode (applyOps Trie.empty ops).root w from rfl, hw,
            searchNode_append _ n p s ht]
          exact hs
        · rintro ⟨hsw, ⟨s, hps⟩⟩
          refine ⟨s, hps.symm, ?_⟩
          rw [show Trie.search (applyOps Trie.empty ops) w
            = TrieNode.searchNode (applyOps Trie.empty ops).root w from rfl, ← hps,
            searchNode_append _ n p s ht] at hsw
          exact hsw
      · rw [show Trie.count_prefix (applyOps Trie.empty ops) p
          = TrieNode.countWords n from by simp [ Trie.count_prefix, ht],
          subtreeWords_length n p]
  · rw [show Trie.count_prefix (applyOps Trie.empty ops) []
      = TrieNode.countWords (applyOps Trie.empty ops).root from by
        simp [ Trie.count_prefix, TrieNode.traverse]]
    exact (applyOps_size_count ops Trie.empty (by
      simp [Trie.empty, TrieNode.countWords, countWordsList])).symm
  · intro h
    rw [show Trie.starts_with (applyOps Trie.empty ops) p
      = (TrieNode.traverse (applyOps Trie.empty ops).root p).isSome from rfl] at h
    cases ht : TrieNode.traverse (applyOps Trie.empty ops).root p with
    | some m =>
      rw [ht] at h
      exact Bool.noConfusion h
    | none => simp [ Trie.count_prefix, ht]

/-- Witness for C5: a prefix with no node in the trie containing "a". -/
theorem C5_witness :
    Trie.starts_with (applyOps Trie.empty [Op.ins ['a']]) ['z'] = false ∧
      Trie.count_prefix (applyOps Trie.empty [Op.ins ['a']]) ['z'] = 0 :=
  ⟨by decide, (C5_count_correct [Op.ins ['a']] ['z']).2.2 (by decide)⟩

/-- C6: with a positive limit `k`, `get_words_with_prefix(P, k)` returns at
most `k` words, each having prefix `P` and satisfying `search`; with no
limit it returns exactly the stored words with prefix `P`, each once. -/
theorem C6_enumeration (ops : List Op) (p : List Char) (k : Int)
    (hk : 0 < k) :
    ((( Trie.get_words_with_prefix (applyOps Trie.empty ops) p
          (some k)).length : Int) ≤ k ∧
      (∀ w, w ∈ Trie.get_words_with_prefix (applyOps Trie.empty ops) p
          (some k) →
        p <+: w ∧ Trie.search (applyOps Trie.empty ops) w = true)) ∧
    ((∀ w, w ∈ Trie.get_words_with_prefix (applyOps Trie.empty ops) p none ↔
        (p <+: w ∧ Trie.search (applyOps Trie.empty ops) w = true)) ∧
      ( Trie.get_words_with_prefix (applyOps Trie.empty ops) p none).Nodup) := by
  have hwf := reachable_wf ops
  cases ht : TrieNode.traverse (applyOps Trie.empty ops).root p with
  | none =>
    refine ⟨⟨by simp [ Trie.get_words_with_prefix, ht]; omega, ?_⟩, ?_, ?_⟩
    · intro w hw
      simp [ Trie.get_words_with_prefix, ht] at hw
    · intro w
      simp only [ Trie.get_words_with_prefix, ht]
      simp only [List.not_mem_nil, false_iff, not_and]
      rintro ⟨s, hps⟩
      intro hsw
      rw [show Trie.search (applyOps Trie.empty ops) w
        = TrieNode.searchNode (applyOps Trie.empty ops).root w from rfl, ← hps,
        searchNode_append_none _ p s ht] at hsw
      exact Bool.noConfusion hsw
    · simp [ Trie.get_words_with_prefix, ht]
  | some n =>
    have hnwf := traverse_wf p _ n hwf ht
    have hmem : ∀ w, w ∈ subtreeWords n p ↔
        (p <+: w ∧ Trie.search (applyOps Trie.empty ops) w = true) := by
      intro w
      rw [subtreeWords_mem n p w hnwf]
      constructor
      · rintro ⟨s, hw, hs⟩
        refine ⟨⟨s, hw.symm⟩, ?_⟩
        rw [show Trie.search (applyOps Trie.empty ops) w
          = TrieNode.searchNode (applyOps Trie.empty ops).root w from rfl, hw,
          searchNode_append _ n p s ht]
        exact hs
      · rintro ⟨⟨s, hps⟩, hsw⟩
        refine ⟨s, hps.symm, ?_⟩
        rw [show Trie.search (applyOps Trie.empty ops) w
          = TrieNode.searchNode (applyOps Trie.empty ops).root w from rfl, ← hps,
          searchNode_append _ n p s ht] at hsw
        exact hsw
    refine ⟨⟨?_, ?_⟩, ?_, ?_⟩
    · simp only [ Trie.get_words_with_prefix, ht]
      apply dfsWords_le k n p []
      simp
      omega
    · intro w hw
      simp only [ Trie.get_words_with_prefix, ht] at hw
      rcases dfsWords_sub (some k) n p [] w hw with h1 | h2
      · simp at h1
      · exact (hmem w).mp h2
    · intro w
      simp only [ Trie.get_words_with_prefix, ht, dfsWords_none n p [],
        List.nil_append]
      exact hmem w
    · simp only [ Trie.get_words_with_prefix, ht, dfsWords_none n p [],
        List.nil_append]
      exact subtreeWords_nodup n p hnwf

/-- Witness for C6: limit 1 on the trie containing "ab". -/
theorem C6_witness :
    (0 : Int) < 1 ∧
      ((( Trie.get_words_with_prefix (applyOps Trie.empty [Op.ins ['a', 'b']])
          ['a'] (some 1)).length : Int) ≤ 1) :=
  ⟨by decide,
    (C6_enumeration [Op.ins ['a', 'b']] ['a'] 1 (by decide)).1.1⟩
